import Mathlib

/-!
Verification of the text-to-Anki NLP service (dc-final).

This file gives a shallow embedding of the Python sources
(`nlp_pipeline.py`, `nlp.py`, `worker.py`) as executable Lean
definitions, and proves or refutes the specification claims about them.

Modelling conventions:
* Python `str` is modelled by `String` / `List Char`; regex character
  classes are modelled over ASCII (the inputs of interest are ASCII).
* Python floats are modelled by exact rationals `ℚ`; `math.log` by
  `Real.log` (scores that involve a logarithm live in `ℝ`).
* Python's stable `sorted` on items carrying a distinct position index
  is modelled by `List.insertionSort` with the key order refined by the
  index, which yields the same (unique) sorted permutation.
-/

namespace DcFinal

/-! ### Character classes (ASCII model of the Python regex classes) -/

/-- ASCII whitespace, modelling the Python regex class `\s`. -/
def isPySpace (c : Char) : Bool :=
  c = ' ' || c = '\t' || c = '\n' || c = '\r' || c = '\x0b' || c = '\x0c'

/-- `[A-Z]`. -/
def isUpperAZ (c : Char) : Bool := 'A' ≤ c && c ≤ 'Z'

/-- `[a-z]`. -/
def isLowerAZ (c : Char) : Bool := 'a' ≤ c && c ≤ 'z'

/-- `[0-9]`. -/
def isDigit09 (c : Char) : Bool := '0' ≤ c && c ≤ '9'

/-- The Python regex class `\w` (ASCII model): `[A-Za-z0-9_]`. -/
def isWordChar (c : Char) : Bool :=
  isUpperAZ c || isLowerAZ c || isDigit09 c || c = '_'

/-- Terminal sentence punctuation, the class `[.!?]` of
`nlp_pipeline.TextNormalizer.normalize`. -/
def isTerminalPunct (c : Char) : Bool := c = '.' || c = '!' || c = '?'

/-- ASCII lower-casing of one character (model of Python `str.lower`
on the ASCII inputs considered). -/
def asciiLower (c : Char) : Char :=
  if isUpperAZ c then Char.ofNat (c.toNat + 32) else c

/-- ASCII lower-casing of a character list. -/
def lowerChars (cs : List Char) : List Char := cs.map asciiLower

/-! ### `re.sub(r'\s+', ' ', text)`, `strip`, `split` -/

/-- Worker for `collapseWs`: the flag records whether the previous
character was whitespace (the current whitespace run has already
emitted its single replacement space). -/
def collapseWsGo : Bool → List Char → List Char
  | _, [] => []
  | prevWs, c :: cs =>
    if isPySpace c then
      if prevWs then collapseWsGo true cs
      else ' ' :: collapseWsGo true cs
    else c :: collapseWsGo false cs

/-- `re.sub(r'\s+', ' ', text)`: replace every maximal whitespace run
by a single space. -/
def collapseWs (cs : List Char) : List Char := collapseWsGo false cs

/-- Python `str.strip()`: drop leading and trailing whitespace. -/
def stripChars (cs : List Char) : List Char :=
  ((cs.dropWhile isPySpace).reverse.dropWhile isPySpace).reverse

/-- Python `str.split()` (no separator): split on whitespace runs,
discarding empty pieces.  `acc` holds finished words, `cur` the word
being read. -/
def pySplitWsGo (acc : List (List Char)) (cur : List Char) :
    List Char → List (List Char)
  | [] => if cur = [] then acc else acc ++ [cur]
  | c :: cs =>
    if isPySpace c then
      if cur = [] then pySplitWsGo acc [] cs
      else pySplitWsGo (acc ++ [cur]) [] cs
    else pySplitWsGo acc (cur ++ [c]) cs

/-- Python `str.split()` with no argument. -/
def pySplitWs (cs : List Char) : List (List Char) := pySplitWsGo [] [] cs

/-! ### `re.split(r'[.!?]+\s+', text)` as a one-pass automaton

The pattern matches a maximal run of terminal punctuation followed by
at least one whitespace character; the matched characters are removed
and the text is split there.  A punctuation run *not* followed by
whitespace (e.g. at end of string) is not a match and stays inside the
current fragment.  The automaton state holds the finished fragments,
the current fragment, and a mode recording whether we are inside a
punctuation run (with its buffered characters) or inside the
whitespace tail of a match. -/

inductive SplitMode : Type
  | normal : SplitMode
  | inPunct : List Char → SplitMode
  | inWs : SplitMode
deriving DecidableEq, Repr

structure SplitState where
  frags : List (List Char)
  cur : List Char
  mode : SplitMode
deriving DecidableEq, Repr

def splitStep (s : SplitState) (c : Char) : SplitState :=
  match s.mode with
  | .normal =>
    if isTerminalPunct c then { s with mode := .inPunct [c] }
    else { s with cur := s.cur ++ [c] }
  | .inPunct buf =>
    if isTerminalPunct c then { s with mode := .inPunct (buf ++ [c]) }
    else if isPySpace c then
      { frags := s.frags ++ [s.cur], cur := [], mode := .inWs }
    else { s with cur := s.cur ++ buf ++ [c], mode := .normal }
  | .inWs =>
    if isPySpace c then s
    else if isTerminalPunct c then { s with mode := .inPunct [c] }
    else { s with cur := [c], mode := .normal }

def splitFinish (s : SplitState) : List (List Char) :=
  match s.mode with
  | .normal => s.frags ++ [s.cur]
  | .inPunct buf => s.frags ++ [s.cur ++ buf]
  | .inWs => s.frags ++ [[]]

/-- `re.split(r'[.!?]+\s+', text)`. -/
def splitSentencesRaw (cs : List Char) : List (List Char) :=
  splitFinish (cs.foldl splitStep ⟨[], [], .normal⟩)

/-! ### `TextNormalizer.normalize` (nlp_pipeline.py, stage 1) -/

structure NormalizeResult where
  sentences : List String
  char_count : ℕ
  word_count : ℕ
  sentence_count : ℕ
deriving DecidableEq, Repr

/-- `nlp_pipeline.TextNormalizer.normalize`: collapse whitespace,
strip, split into sentences on `[.!?]+\s+`, keep the stripped
non-empty fragments, and count characters and whitespace-split words
of the cleaned text. -/
def TextNormalizer.normalize (text : String) : NormalizeResult :=
  let cleaned := stripChars (collapseWs text.data)
  let frags := splitSentencesRaw cleaned
  let sentences := frags.filterMap (fun f =>
    let t := stripChars f
    if t = [] then none else some (String.mk t))
  { sentences := sentences
    char_count := cleaned.length
    word_count := (pySplitWs cleaned).length
    sentence_count := sentences.length }

/-! ### `NamedEntityRecognizer.extract_entities` (nlp_pipeline.py, stage 4)

The entity pattern is `\b[A-Z][a-z]+(?:\s+[A-Z][a-z]+)*\b`, scanned with
`re.finditer`.  A match is a capitalized word (one upper-case letter
followed by a maximal non-empty run of lower-case letters) extended
greedily by whitespace-separated capitalized words; the final word
boundary can only fail after the deepest extension (every earlier
candidate end is followed by whitespace), so failure backtracks exactly
one extension. -/

/-- Match `[A-Z][a-z]+` at the head: the capitalized word and the rest. -/
def matchCapWord : List Char → Option (List Char × List Char)
  | [] => none
  | c :: cs =>
    if isUpperAZ c then
      let lows := cs.takeWhile isLowerAZ
      if lows = [] then none
      else some (c :: lows, cs.dropWhile isLowerAZ)
    else none

/-- `\b` after a match: end of string or a non-word character. -/
def boundaryOk : List Char → Bool
  | [] => true
  | c :: _ => !isWordChar c

/-- Greedily extend a matched phrase by `(?:\s+[A-Z][a-z]+)*`, checking
the trailing `\b`; on failure of the deepest extension fall back one
level (whose end is followed by whitespace, hence at a boundary). -/
def extendPhrase : ℕ → List Char → List Char → Option (List Char × List Char)
  | 0, acc, rest => if boundaryOk rest then some (acc, rest) else none
  | fuel + 1, acc, rest =>
    let ws := rest.takeWhile isPySpace
    if ws = [] then
      if boundaryOk rest then some (acc, rest) else none
    else
      match matchCapWord (rest.dropWhile isPySpace) with
      | none => some (acc, rest)
      | some (w, rest2) =>
        match extendPhrase fuel (acc ++ ws ++ w) rest2 with
        | some r => some r
        | none => some (acc, rest)

/-- Try the whole entity pattern at the head of `cs` (the leading `\b`
is checked by the caller). -/
def capPhraseAt (cs : List Char) : Option (List Char × List Char) :=
  match matchCapWord cs with
  | none => none
  | some (w, rest) => extendPhrase rest.length w rest

/-- `re.finditer` for the entity pattern: scan left to right, taking
non-overlapping matches; `prevIsWord` tracks the word-boundary state. -/
def scanCapPhrases : ℕ → Bool → List Char → List (List Char)
  | 0, _, _ => []
  | _, _, [] => []
  | fuel + 1, prevIsWord, c :: rest =>
    if prevIsWord then scanCapPhrases fuel (isWordChar c) rest
    else
      match capPhraseAt (c :: rest) with
      | some (phrase, rest2) => phrase :: scanCapPhrases fuel true rest2
      | none => scanCapPhrases fuel (isWordChar c) rest

/-- Sentence-starting words skipped by `extract_entities`
(`entity.lower() in {...}`). -/
def isSkipWord (cs : List Char) : Bool :=
  let t := lowerChars cs
  t = "the".data || t = "this".data || t = "that".data || t = "these".data ||
    t = "those".data || t = "a".data || t = "an".data

/-- Case-insensitive character comparison (`re.IGNORECASE`, ASCII). -/
def charIEq (a b : Char) : Bool := asciiLower a = asciiLower b

/-- Match a literal pattern case-insensitively at the head, returning
the rest of the input. -/
def matchIString : List Char → List Char → Option (List Char)
  | [], rest => some rest
  | _ :: _, [] => none
  | p :: ps, c :: cs => if charIEq p c then matchIString ps cs else none

/-- `\s+` at the head: require at least one whitespace character and
consume the maximal run (the capture class `[^,.;]+` admits whitespace,
so the greedy run is never given back on the inputs considered). -/
def matchWsPlus (cs : List Char) : Option (List Char) :=
  if (cs.takeWhile isPySpace) = [] then none else some (cs.dropWhile isPySpace)

/-- The pattern `{entity}\s+is\s+(?:a|an)\s+([^,.;]+)` at the head of
the input (case-insensitive); returns the captured group. -/
def isAMatchAt (entity : List Char) (cs : List Char) : Option (List Char) :=
  match matchIString entity cs with
  | none => none
  | some r1 =>
    match matchWsPlus r1 with
    | none => none
    | some r2 =>
      match matchIString ['i', 's'] r2 with
      | none => none
      | some r3 =>
        match matchWsPlus r3 with
        | none => none
        | some r4 =>
          let capture : List Char → Option (List Char) := fun r =>
            match matchWsPlus r with
            | none => none
            | some r5 =>
              let grp := r5.takeWhile (fun c => c ≠ ',' && c ≠ '.' && c ≠ ';')
              if grp = [] then none else some grp
          match matchIString ['a'] r4 with
          | some rA =>
            match capture rA with
            | some grp => some grp
            | none =>
              match matchIString ['a', 'n'] r4 with
              | some rAn => capture rAn
              | none => none
          | none =>
            match matchIString ['a', 'n'] r4 with
            | some rAn => capture rAn
            | none => none

/-- `re.search` for the `is a` pattern: try every start position, left
to right. -/
def searchIsA (entity : List Char) : ℕ → List Char → Option (List Char)
  | 0, _ => none
  | _ + 1, [] => isAMatchAt entity []
  | fuel + 1, c :: cs =>
    match isAMatchAt entity (c :: cs) with
    | some g => some g
    | none => searchIsA entity fuel cs

/-- Deduplicate entity triples by surface form, keeping first
occurrences (`seen` accumulates the surface forms already kept). -/
def dedupeByFst : List (String × String × String) → List String →
    List (String × String × String)
  | [], _ => []
  | e :: es, seen =>
    if e.1 ∈ seen then dedupeByFst es seen
    else e :: dedupeByFst es (e.1 :: seen)

/-- `nlp_pipeline.NamedEntityRecognizer.extract_entities`: per sentence,
find capitalized phrases, skip common sentence starters, attach
`(TERM, definition)` from the `is a` pattern when it matches and
`(UNKNOWN, sentence)` otherwise; deduplicate by surface form and keep
the first 20. -/
def NamedEntityRecognizer.extract_entities (sentences : List String) :
    List (String × String × String) :=
  let entities := sentences.flatMap (fun sentence =>
    let cs := sentence.data
    (scanCapPhrases (cs.length + 1) false cs).filterMap (fun ph =>
      let entity := String.mk ph
      if isSkipWord ph then none
      else
        match searchIsA ph (cs.length + 1) cs with
        | some g => some (entity, "TERM", String.mk (stripChars g))
        | none => some (entity, "UNKNOWN", sentence)))
  (dedupeByFst entities []).take 20

/-! ### `nlp.NLPProcessor.count_syllables` -/

/-- The vowels `'aeiouy'` of `count_syllables`. -/
def isVowelCh (c : Char) : Bool :=
  c = 'a' || c = 'e' || c = 'i' || c = 'o' || c = 'u' || c = 'y'

/-- The counting loop of `count_syllables`: add one at each character
that is a vowel while the previous character was not
(`previous_was_vowel`). -/
def syllableLoop : Bool → List Char → ℕ
  | _, [] => 0
  | prev, c :: cs =>
    (if isVowelCh c && !prev then 1 else 0) + syllableLoop (isVowelCh c) cs

/-- `nlp.NLPProcessor.count_syllables`: lower-case the word, count
transitions into a vowel, subtract one for a trailing `'e'`, and return
1 when the result is 0.  The Python counter is an `int`, so the result
type is `ℤ`. -/
def NLPProcessor.count_syllables (word : String) : ℤ :=
  let w := lowerChars word.data
  let raw : ℤ := syllableLoop false w
  let adj : ℤ := if w.getLast? = some 'e' then raw - 1 else raw
  if adj = 0 then 1 else adj

/-- Spec-side definition, following the specification's words: the
number of maximal runs of consecutive vowel characters, counted at run
starts (a vowel whose predecessor is absent or not a vowel). -/
def vowelRunCount (cs : List Char) : ℕ :=
  ((false :: cs.map isVowelCh).zip (cs.map isVowelCh)).countP
    (fun p => p.2 && !p.1)

/-! ### `nlp.NLPProcessor.flesch_kincaid_analysis`

The NLTK tokenizers `sent_tokenize` and `word_tokenize` are external
library calls; the embedding takes their outputs (`sentences`,
`tokens`) as inputs.  Python iterates `set(words)` to build the
per-word complexity table; the iteration order of a `str` set is not a
function of its contents (it depends on the per-process hash seed), so
the embedding takes that enumeration (`uniq`) as an input together
with the predicate `isValidSetEnum` characterising the lists that
`set(words)` can enumerate to. -/

/-- Python `str.isalpha` (ASCII model): non-empty and all letters. -/
def isAlphaWord (cs : List Char) : Bool :=
  !cs.isEmpty && cs.all (fun c => isUpperAZ c || isLowerAZ c)

/-- The filtered, lower-cased word list of `flesch_kincaid_analysis`:
`[word.lower() for word in words if word.isalpha()]`. -/
def fkWords (tokens : List String) : List String :=
  (tokens.filter (fun t => isAlphaWord t.data)).map
    (fun t => String.mk (lowerChars t.data))

/-- `uniq` is a possible iteration order of `set(words)`: no
duplicates, and the same members as `words`. -/
def isValidSetEnum (words uniq : List String) : Prop :=
  uniq.Nodup ∧ (∀ w ∈ words, w ∈ uniq) ∧ (∀ w ∈ uniq, w ∈ words)

instance (words uniq : List String) : Decidable (isValidSetEnum words uniq) := by
  unfold isValidSetEnum; infer_instance

/-- One entry of the `word_complexity` table. -/
structure ComplexWord where
  word : String
  syllables : ℤ
  length : ℕ
  complexity_score : ℤ
deriving DecidableEq, Repr

/-- The `word_complexity` table in `set(words)` iteration order,
keeping words longer than 2 characters; complexity is
syllables × length. -/
def wordComplexityEntries (uniq : List String) : List ComplexWord :=
  uniq.filterMap (fun w =>
    if 2 < w.data.length then
      let syl := NLPProcessor.count_syllables w
      some ⟨w, syl, w.data.length, syl * (w.data.length : ℤ)⟩
    else none)

/-- Python's stable `sorted(..., key=complexity, reverse=True)` on the
position-decorated entries: descending complexity, ties by ascending
position. -/
def fkSortRel (x y : ℕ × ComplexWord) : Prop :=
  y.2.complexity_score < x.2.complexity_score ∨
    (x.2.complexity_score = y.2.complexity_score ∧ x.1 ≤ y.1)

instance : DecidableRel fkSortRel := fun x y => by
  unfold fkSortRel; infer_instance

/-- The `complex_words` output: sort the complexity table by
descending complexity (stable) and keep the first `top_n`. -/
def fkComplexWords (uniq : List String) (top_n : ℕ) : List ComplexWord :=
  ((List.insertionSort fkSortRel (wordComplexityEntries uniq).enum).take
    top_n).map Prod.snd

/-- Python `round(x, 2)`: rounding an exact rational to 2 decimal
places (nearest-integer rounding of `100 x`; the float tie-breaking of
CPython is immaterial at this abstraction). -/
def round2 (q : ℚ) : ℚ := ((⌊q * 100 + 1 / 2⌋ : ℤ) : ℚ) / 100

/-- `round2` is rounding `100 q` to the nearest integer, divided by
100. -/
theorem round2_eq_round (q : ℚ) : round2 q = ((round (q * 100) : ℤ) : ℚ) / 100 := by
  rw [round_eq]; rfl

/-- The result record of `flesch_kincaid_analysis`. -/
structure FKResult where
  flesch_kincaid_grade : ℚ
  total_sentences : ℕ
  total_words : ℕ
  total_syllables : ℤ
  avg_words_per_sentence : ℚ
  avg_syllables_per_word : ℚ
  complex_words : List ComplexWord
deriving DecidableEq, Repr

/-- `nlp.NLPProcessor.flesch_kincaid_analysis` after tokenization:
compute the totals, the guarded Flesch-Kincaid grade, the guarded
averages (each reported rounded to 2 decimals), and the most complex
words. -/
def NLPProcessor.flesch_kincaid_analysis (sentences tokens uniq : List String)
    (top_n : ℕ) : FKResult :=
  let words := fkWords tokens
  let total_sentences := sentences.length
  let total_words := words.length
  let total_syllables : ℤ := (words.map NLPProcessor.count_syllables).sum
  let fk_grade : ℚ :=
    if 0 < total_sentences ∧ 0 < total_words then
      0.39 * ((total_words : ℚ) / (total_sentences : ℚ)) +
        11.8 * ((total_syllables : ℚ) / (total_words : ℚ)) - 15.59
    else 0
  { flesch_kincaid_grade := round2 fk_grade
    total_sentences := total_sentences
    total_words := total_words
    total_syllables := total_syllables
    avg_words_per_sentence :=
      if 0 < total_sentences then
        round2 ((total_words : ℚ) / (total_sentences : ℚ))
      else 0
    avg_syllables_per_word :=
      if 0 < total_words then
        round2 ((total_syllables : ℚ) / (total_words : ℚ))
      else 0
    complex_words := fkComplexWords uniq top_n }

/-! ### Theorems for claims C3 and C4 -/

/-- The concrete document of the C3 scenario. -/
def c3Input : String := "Hello world. The Quick Brown Fox jumps. Fox is a animal."

/-- C4 (counterexample): on the document `"Hello world."`, which ends in
terminal punctuation, the normalizer returns the single sentence
`"Hello world."` — the final sentence retains the terminal punctuation,
so the claimed split at terminal punctuation before end of string does
not happen. -/
theorem normalize_trailing_punct_counterexample :
    (TextNormalizer.normalize "Hello world.").sentences = ["Hello world."] ∧
      "Hello world.".data.getLast? = some '.' := by decide

/-- C4 (amended): the normalizer collapses each whitespace run to a
single space, trims, splits only at terminal punctuation followed by
whitespace, and discards empty fragments; every returned sentence is
non-empty, and a document ending in terminal punctuation retains that
punctuation in its final sentence. -/
theorem normalize_amended :
    (∀ text : String, ∀ s ∈ (TextNormalizer.normalize text).sentences, s ≠ "") ∧
      TextNormalizer.normalize "  One\ttwo. Three  four! Five?" =
        ⟨["One two", "Three four", "Five?"], 26, 5, 3⟩ := by
  refine ⟨?_, by decide⟩
  intro text s hs
  simp only [TextNormalizer.normalize, List.mem_filterMap] at hs
  obtain ⟨f, -, hf⟩ := hs
  by_cases h : stripChars f = []
  · simp [h] at hf
  · rw [if_neg h] at hf
    have hmk : String.mk (stripChars f) = s := Option.some.inj hf
    intro hcon
    apply h
    have := congrArg String.data (hmk.trans hcon)
    simpa using this

/-- C4 (witness for the amended theorem): the first sentence returned on
a concrete document is non-empty. -/
theorem normalize_amended_witness : "One two" ≠ "" :=
  normalize_amended.1 "  One\ttwo. Three  four! Five?" "One two" (by decide)

/-! ### `worker.py`: job records and one dispatch iteration

The Redis job store is modelled as a partial map from job ids to job
records; timestamps (`datetime.utcnow().isoformat()`) are opaque
strings supplied as an input `now`; the NLP pipeline body of the inner
`try` block (`process_text_content` plus reading the output file back)
is a parameter returning either the output path and CSV content or the
raised error message. -/

inductive JobStatus : Type
  | queued | processing | completed | failed
deriving DecidableEq, Repr

/-- A job record (`job:{job_id}` JSON object).  Fields written by
`update_job_status` at the call sites in `worker_loop` are `Option`s,
absent (`none`) until set. -/
structure Job where
  status : JobStatus
  filename : String
  file_content : Option String := none
  error : Option String := none
  failed_at : Option String := none
  started_at : Option String := none
  completed_at : Option String := none
  updated_at : Option String := none
  output_path : Option String := none
  output_content : Option String := none
deriving DecidableEq, Repr

/-- The job store: `job:{id}` keys in Redis. -/
def JobStore : Type := String → Option Job

/-- The keyword arguments of one `update_job_status` call; a `some`
field overwrites the record's field (Python `dict.update`). -/
structure KwUpdates where
  error : Option String := none
  failed_at : Option String := none
  started_at : Option String := none
  completed_at : Option String := none
  output_path : Option String := none
  output_content : Option String := none

/-- `worker.update_job_status`: if the record exists, set its status
and `updated_at` and merge the keyword arguments; otherwise do
nothing. -/
def update_job_status (store : JobStore) (jobId : String)
    (status : JobStatus) (now : String) (kw : KwUpdates) : JobStore :=
  fun id =>
    if id = jobId then
      match store jobId with
      | none => none
      | some j => some
        { j with
          status := status
          updated_at := some now
          error := kw.error <|> j.error
          failed_at := kw.failed_at <|> j.failed_at
          started_at := kw.started_at <|> j.started_at
          completed_at := kw.completed_at <|> j.completed_at
          output_path := kw.output_path <|> j.output_path
          output_content := kw.output_content <|> j.output_content }
    else store id

/-- One iteration of `worker.worker_loop` after popping `jobId` from
the queue: skip when the record is missing; fail immediately (without
`failed_at`) when `file_content` is falsy — `if not file_content:` is
Python truthiness, so an absent field *and* an empty string both take
this path; otherwise mark the job processing, run the pipeline, and
mark it completed or failed. -/
def workerStep (pipeline : String → String → Except String (String × String))
    (now : String) (store : JobStore) (jobId : String) : JobStore :=
  match store jobId with
  | none => store
  | some job =>
    match job.file_content with
    | none =>
      update_job_status store jobId .failed now
        { error := some "Missing file content in job metadata" }
    | some content =>
      if content = "" then
        update_job_status store jobId .failed now
          { error := some "Missing file content in job metadata" }
      else
        let store1 := update_job_status store jobId .processing now
          { started_at := some now }
        match pipeline content job.filename with
        | .ok (outPath, outContent) =>
          update_job_status store1 jobId .completed now
            { output_path := some outPath
              output_content := some outContent
              completed_at := some now }
        | .error e =>
          update_job_status store1 jobId .failed now
            { error := some e, failed_at := some now }

/-! ### Theorems for claims C5, C6 and C7 -/

/-- The syllable loop counts exactly the vowel-run starts: each
position whose character is a vowel while the preceding one (or the
initial flag) is not. -/
theorem syllableLoop_eq_runCount (cs : List Char) (prev : Bool) :
    syllableLoop prev cs =
      ((prev :: cs.map isVowelCh).zip (cs.map isVowelCh)).countP
        (fun p => p.2 && !p.1) := by
  induction cs generalizing prev with
  | nil => rfl
  | cons c cs ih =>
    simp only [syllableLoop, List.map_cons, List.zip_cons_cons,
      List.countP_cons, ih (isVowelCh c)]
    cases h : isVowelCh c && !prev
    · simp only [h, Bool.false_eq_true, if_false]
      omega
    · simp only [h, if_true]
      omega

/-- A list containing a vowel has at least one vowel-run start. -/
theorem syllableLoop_pos_of_vowel {cs : List Char}
    (h : ∃ c ∈ cs, isVowelCh c) : 0 < syllableLoop false cs := by
  induction cs with
  | nil => simp at h
  | cons c cs ih =>
    by_cases hc : isVowelCh c
    · simp [syllableLoop, hc]
    · obtain ⟨d, hd, hdv⟩ := h
      rcases List.mem_cons.1 hd with rfl | hd'
      · exact absurd hdv hc
      · simpa [syllableLoop, hc] using ih ⟨d, hd', hdv⟩

/-- C7: for every word, `count_syllables` returns the number of maximal
runs of consecutive vowel characters in the lower-cased word, minus one
when it ends in `'e'`, floored at 1 — hence always at least 1 — and in
particular `cake ↦ 1`, `hello ↦ 2`, `world ↦ 1`. -/
theorem count_syllables_spec :
    (∀ w : String,
      NLPProcessor.count_syllables w =
        max 1 ((vowelRunCount (lowerChars w.data) : ℤ) -
          (if (lowerChars w.data).getLast? = some 'e' then 1 else 0)) ∧
      1 ≤ NLPProcessor.count_syllables w) ∧
    NLPProcessor.count_syllables "cake" = 1 ∧
    NLPProcessor.count_syllables "hello" = 2 ∧
    NLPProcessor.count_syllables "world" = 1 := by
  refine ⟨?_, by decide, by decide, by decide⟩
  intro w
  have hrun : syllableLoop false (lowerChars w.data) =
      vowelRunCount (lowerChars w.data) :=
    syllableLoop_eq_runCount (lowerChars w.data) false
  simp only [NLPProcessor.count_syllables, hrun]
  by_cases h : (lowerChars w.data).getLast? = some 'e'
  · have hne : lowerChars w.data ≠ [] := by rintro hnil; rw [hnil] at h; simp at h
    have hlast := List.getLast?_eq_getLast_of_ne_nil hne
    have hmem : 'e' ∈ lowerChars w.data :=
      Option.some.inj (hlast.symm.trans h) ▸ List.getLast_mem hne
    have hpos : 0 < syllableLoop false (lowerChars w.data) :=
      syllableLoop_pos_of_vowel ⟨'e', hmem, by decide⟩
    rw [hrun] at hpos
    simp only [h, if_pos]
    constructor
    · split <;> omega
    · split <;> omega
  · simp only [h, if_neg, if_false]
    constructor
    · split <;> omega
    · split <;> omega

/-- C6: the reported grade equals
`0.39 (words/sentences) + 11.8 (syllables/words) − 15.59` rounded to 2
decimal places when both counts are positive, and 0 otherwise; the
divisions are guarded by the positivity test. -/
theorem fk_grade_formula (sentences tokens uniq : List String) (top_n : ℕ) :
    ((0 < sentences.length ∧ 0 < (fkWords tokens).length) →
      (NLPProcessor.flesch_kincaid_analysis sentences tokens uniq
          top_n).flesch_kincaid_grade =
        round2 (0.39 * (((fkWords tokens).length : ℚ) / (sentences.length : ℚ)) +
          11.8 * (((((fkWords tokens).map NLPProcessor.count_syllables).sum : ℤ) : ℚ) /
            ((fkWords tokens).length : ℚ)) - 15.59)) ∧
    ((sentences.length = 0 ∨ (fkWords tokens).length = 0) →
      (NLPProcessor.flesch_kincaid_analysis sentences tokens uniq
          top_n).flesch_kincaid_grade = 0) := by
  constructor
  · intro h
    simp only [NLPProcessor.flesch_kincaid_analysis, if_pos h]
  · intro h
    have hneg : ¬ (0 < sentences.length ∧ 0 < (fkWords tokens).length) := by
      rcases h with h | h <;> omega
    simp only [NLPProcessor.flesch_kincaid_analysis, if_neg hneg]
    norm_num [round2]

/-- C6 (witness): on one sentence `"Hello world"` with tokens `Hello`,
`world` (2 words, 3 syllables) the reported grade is
`round2(0.39·2 + 11.8·1.5 − 15.59) = 2.89`. -/
theorem fk_grade_formula_witness :
    (NLPProcessor.flesch_kincaid_analysis ["Hello world"] ["Hello", "world"]
      ["hello", "world"] 20).flesch_kincaid_grade = 289 / 100 := by
  have h := (fk_grade_formula ["Hello world"] ["Hello", "world"]
    ["hello", "world"] 20).1 ⟨by decide, by decide⟩
  have h1 : (fkWords ["Hello", "world"]).length = 2 := by decide
  have h2 : ((fkWords ["Hello", "world"]).map NLPProcessor.count_syllables).sum = 3 := by
    decide
  have h3 : ([("Hello world" : String)]).length = 1 := rfl
  rw [h1, h2, h3] at h
  rw [h]
  norm_num [round2]

/-- C5: the tie-break order of `complex_words` is *not* a function of
the input text: on the words `abc` and `bcd` (equal complexity 3), two
iteration orders that `set(words)` can produce (the order depends on
the per-process hash seed) yield different output sequences. -/
theorem fk_complex_words_order_nondeterministic :
    isValidSetEnum (fkWords ["abc", "bcd"]) ["abc", "bcd"] ∧
    isValidSetEnum (fkWords ["abc", "bcd"]) ["bcd", "abc"] ∧
    fkComplexWords ["abc", "bcd"] 20 ≠ fkComplexWords ["bcd", "abc"] 20 := by
  decide

/-! ### `nlp_pipeline.Summarizer.summarize` (stage 2) -/

/-- The stopword set of `Summarizer.summarize`. -/
def isSummaStopword (w : List Char) : Bool :=
  w = "the".data || w = "a".data || w = "an".data || w = "and".data ||
    w = "or".data || w = "but".data || w = "in".data || w = "on".data ||
    w = "at".data || w = "to".data || w = "for".data || w = "of".data ||
    w = "with".data || w = "is".data || w = "are".data || w = "was".data ||
    w = "were".data || w = "be".data || w = "been".data || w = "being".data

/-- `sentence.lower().split()`. -/
def lowerSplitWords (s : String) : List (List Char) :=
  pySplitWs (lowerChars s.data)

/-- The `word_freq` Counter of `summarize`: occurrences over the whole
document of a non-stopword word longer than 2 characters; any other
word is absent from the counter (`word_freq.get(word, 0)` = 0). -/
def wordFreq (sentences : List String) (w : List Char) : ℕ :=
  if 2 < w.length && !isSummaStopword w then
    (sentences.flatMap lowerSplitWords).count w
  else 0

/-- A sentence's score: the sum of the frequencies of its
lower-cased whitespace-split words. -/
def sentenceScore (sentences : List String) (s : String) : ℕ :=
  ((lowerSplitWords s).map (wordFreq sentences)).sum

/-- Python's stable `sorted(sentence_scores, key=lambda x: x[1],
reverse=True)` on the `(index, score, sentence)` triples: descending
score, ties by ascending index. -/
def summaSortRel (x y : ℕ × ℕ × String) : Prop :=
  y.2.1 < x.2.1 ∨ (x.2.1 = y.2.1 ∧ x.1 ≤ y.1)

instance : DecidableRel summaSortRel := fun x y => by
  unfold summaSortRel; infer_instance

/-- The second sort `sorted(top_sentences, key=lambda x: x[0])`:
ascending index (the indices are distinct, so stability is
immaterial). -/
def idxSortRel (x y : ℕ × ℕ × String) : Prop := x.1 ≤ y.1

instance : DecidableRel idxSortRel := fun x y => by
  unfold idxSortRel; infer_instance

instance : IsTotal (ℕ × ℕ × String) idxSortRel :=
  ⟨fun a b => Nat.le_total a.1 b.1⟩

instance : IsTrans (ℕ × ℕ × String) idxSortRel :=
  ⟨fun _ _ _ h1 h2 => Nat.le_trans h1 h2⟩

/-- `nlp_pipeline.Summarizer.summarize`: when there are at most
`num_sentences` sentences return them all joined by spaces; otherwise
score each sentence, take the `num_sentences` best (stable descending
sort), restore the original order, and join by spaces. -/
def Summarizer.summarize (sentences : List String)
    (num_sentences : ℕ := 3) : String :=
  if sentences.length ≤ num_sentences then
    String.intercalate " " sentences
  else
    let scored := sentences.enum.map
      (fun p => (p.1, sentenceScore sentences p.2, p.2))
    let top := (List.insertionSort summaSortRel scored).take num_sentences
    let ordered := List.insertionSort idxSortRel top
    String.intercalate " " (ordered.map (fun t => t.2.2))

/-! ### `nlp_pipeline.TFIDFExtractor.extract_keywords` (stage 3)

`re.findall(r'\b\w+\b', sentence)` is the list of maximal runs of word
characters.  Term frequencies and inverse-document-frequency arguments
are kept as natural-number data `(count, total, numDocs, df+1)`; the
float score `count/total · ln(numDocs/(df+1))` of the code is given
meaning in `ℝ` by `kwScore`.  Python's stable descending sort on float
keys is modelled relationally by `IsStableDescSort`. -/

/-- `re.findall(r'\b\w+\b', s)`: maximal runs of word characters. -/
def findWordsGo (acc : List (List Char)) (cur : List Char) :
    List Char → List (List Char)
  | [] => if cur = [] then acc else acc ++ [cur]
  | c :: cs =>
    if isWordChar c then findWordsGo acc (cur ++ [c]) cs
    else if cur = [] then findWordsGo acc [] cs
    else findWordsGo (acc ++ [cur]) [] cs

def findAllWords (cs : List Char) : List (List Char) := findWordsGo [] [] cs

/-- The stopword set of `extract_keywords`. -/
def isTfidfStopword (w : List Char) : Bool :=
  w = "the".data || w = "a".data || w = "an".data || w = "and".data ||
    w = "or".data || w = "but".data || w = "in".data || w = "on".data ||
    w = "at".data || w = "to".data || w = "for".data || w = "of".data ||
    w = "with".data || w = "is".data || w = "are".data || w = "was".data ||
    w = "were".data || w = "be".data || w = "been".data || w = "being".data ||
    w = "this".data || w = "that".data || w = "these".data ||
    w = "those".data || w = "it".data || w = "its".data || w = "as".data ||
    w = "by".data || w = "from".data || w = "has".data || w = "have".data

/-- The valid lower-cased tokens of one sentence:
`[w.lower() for w in re.findall(r'\b\w+\b', s) if len(w) > 2 and
w.lower() not in stopwords]`. -/
def sentenceTokens (s : String) : List (List Char) :=
  (findAllWords s.data).filterMap (fun w =>
    let lw := lowerChars w
    if 2 < w.length && !isTfidfStopword lw then some lw else none)

/-- `doc_words`: the valid tokens of the whole document. -/
def docWords (sentences : List String) : List (List Char) :=
  sentences.flatMap sentenceTokens

/-- The key order of a Python `Counter`/`dict`: first-occurrence
order. -/
def dedupKeys : List (List Char) → List (List Char) → List (List Char)
  | [], _ => []
  | w :: ws, seen =>
    if w ∈ seen then dedupKeys ws seen
    else w :: dedupKeys ws (w :: seen)

/-- Substring test (`term in s`): does `needle` occur contiguously in
the second list? -/
def startsWithChars : List Char → List Char → Bool
  | [], _ => true
  | _ :: _, [] => false
  | a :: as, b :: bs => a = b && startsWithChars as bs

def containsSub (needle : List Char) : List Char → Bool
  | [] => needle.isEmpty
  | c :: cs => startsWithChars needle (c :: cs) || containsSub needle cs

/-- One entry of the `tfidf` dict, in symbolic form: the term, its
occurrence count and the document's token total (TF = count/total),
the number of sentences and DF+1 (IDF = ln(numDocs/(df+1))). -/
structure KwEntry where
  term : List Char
  count : ℕ
  total : ℕ
  numDocs : ℕ
  dfp : ℕ
deriving DecidableEq, Repr

/-- The real score of an entry: `tf * math.log(num_docs / (df + 1))`. -/
noncomputable def kwEntryScore (e : KwEntry) : ℝ :=
  (e.count : ℝ) / (e.total : ℝ) * Real.log ((e.numDocs : ℝ) / (e.dfp : ℝ))

/-- The `tfidf` dict in insertion (= first-occurrence) order. -/
def keywordData (sentences : List String) : List KwEntry :=
  let dw := docWords sentences
  (dedupKeys dw []).map (fun w =>
    ⟨w, dw.count w, dw.length, sentences.length,
      (sentences.countP (fun s => w ∈ sentenceTokens s)) + 1⟩)

/-- A returned keyword `(term, score, context)` with the score in
symbolic form. -/
structure Keyword where
  term : String
  count : ℕ
  total : ℕ
  numDocs : ℕ
  dfp : ℕ
  context : String
deriving DecidableEq, Repr

/-- The real score of a returned keyword. -/
noncomputable def kwScore (k : Keyword) : ℝ :=
  (k.count : ℝ) / (k.total : ℝ) * Real.log ((k.numDocs : ℝ) / (k.dfp : ℝ))

/-- Python's stable `sorted(tfidf.items(), key=score, reverse=True)`,
relationally: `l'` enumerates `l` along a permutation of its index
range that is sorted by descending real score with ties in ascending
index order (stability). -/
def IsStableDescSort (l l' : List KwEntry) : Prop :=
  ∃ idxs : List ℕ, idxs.Perm (List.range l.length) ∧
    l' = idxs.filterMap (fun i => l[i]?) ∧
    idxs.Pairwise (fun i j => ∀ x y, l[i]? = some x → l[j]? = some y →
      kwEntryScore y < kwEntryScore x ∨
        (kwEntryScore x = kwEntryScore y ∧ i < j))

/-- The context attached to a term: the first sentence whose
lower-cased form contains it, or `""`
(`next((s for s in sentences if term in s.lower()), "")`). -/
def contextOf (term : List Char) (sentences : List String) : String :=
  (sentences.find? (fun s => containsSub term (lowerChars s.data))).getD ""

/-- `nlp_pipeline.TFIDFExtractor.extract_keywords`, relationally (the
sort on real-valued keys is a relation, everything else is the code's
data flow): empty sentence lists and documents with no valid token
yield `[]`; otherwise the result is the stable descending sort of the
`tfidf` entries, cut to `top_n`, each with its context sentence. -/
def ExtractKeywords (sentences : List String) (top_n : ℕ)
    (result : List Keyword) : Prop :=
  if sentences = [] then result = []
  else if docWords sentences = [] then result = []
  else ∃ sorted, IsStableDescSort (keywordData sentences) sorted ∧
    result = (sorted.take top_n).map (fun e =>
      ⟨String.mk e.term, e.count, e.total, e.numDocs, e.dfp,
        contextOf e.term sentences⟩)

/-- The claim's context condition, in the specification's words:
`ctx` is the first sentence in document order whose lower-cased form
contains the term, or the empty string when no sentence contains it. -/
def IsFirstContext (term : List Char) (sentences : List String)
    (ctx : String) : Prop :=
  (ctx = "" ∧ ∀ s ∈ sentences, containsSub term (lowerChars s.data) = false) ∨
  (∃ pre post, sentences = pre ++ ctx :: post ∧
    containsSub term (lowerChars ctx.data) = true ∧
    ∀ s ∈ pre, containsSub term (lowerChars s.data) = false)

/-! ### `nlp_pipeline.DeckAssembler.write_csv` (stage 5) and CSV decoding

`csv.writer` with the default dialect quotes a field exactly when it
contains the delimiter, the quote character, or a line-terminator
character (QUOTE_MINIMAL), doubling embedded quotes, and ends every
row with CRLF.  The decoder below is a standard single-pass CSV
automaton (RFC 4180 style; behaviour on malformed input is a total but
irrelevant choice). -/

/-- Characters that force quoting under QUOTE_MINIMAL with the default
dialect (delimiter, quotechar, lineterminator `\r\n`). -/
def isCsvSpecial (c : Char) : Bool :=
  c = ',' || c = '"' || c = '\r' || c = '\n'

/-- Double every embedded quote. -/
def csvDoubled (f : List Char) : List Char :=
  f.flatMap (fun c => if c = '"' then ['"', '"'] else [c])

/-- Encode one field: quote (with doubling) iff it contains a special
character. -/
def csvEncodeField (f : List Char) : List Char :=
  if f.any isCsvSpecial then '"' :: csvDoubled f ++ ['"'] else f

/-- Encode one two-field row (without the line terminator). -/
def csvEncodeRow (front back : List Char) : List Char :=
  csvEncodeField front ++ [','] ++ csvEncodeField back

/-- `DeckAssembler.write_csv`: the header row `Front,Back` followed by
one row per card, each terminated by CRLF. -/
def DeckAssembler.write_csv (cards : List (List Char × List Char)) :
    List Char :=
  csvEncodeRow "Front".data "Back".data ++ ['\r', '\n'] ++
    cards.flatMap (fun c => csvEncodeRow c.1 c.2 ++ ['\r', '\n'])

inductive CsvMode : Type
  | fieldStart | unquoted | quoted | quoteEnd | afterCR
deriving DecidableEq, Repr

structure CsvState where
  records : List (List (List Char))
  fields : List (List Char)
  cur : List Char
  mode : CsvMode
deriving DecidableEq, Repr

def csvInit : CsvState := ⟨[], [], [], .fieldStart⟩

/-- Close the current record. -/
def csvEndRecord (s : CsvState) : CsvState :=
  ⟨s.records ++ [s.fields ++ [s.cur]], [], [], .fieldStart⟩

/-- One step of the CSV reading automaton. -/
def csvStep (s : CsvState) (c : Char) : CsvState :=
  match s.mode with
  | .fieldStart =>
    if c = '"' then { s with mode := .quoted }
    else if c = ',' then { s with fields := s.fields ++ [s.cur], cur := [] }
    else if c = '\r' then { s with mode := .afterCR }
    else if c = '\n' then csvEndRecord s
    else { s with cur := s.cur ++ [c], mode := .unquoted }
  | .unquoted =>
    if c = ',' then
      { s with fields := s.fields ++ [s.cur], cur := [], mode := .fieldStart }
    else if c = '\r' then { s with mode := .afterCR }
    else if c = '\n' then csvEndRecord s
    else { s with cur := s.cur ++ [c] }
  | .quoted =>
    if c = '"' then { s with mode := .quoteEnd }
    else { s with cur := s.cur ++ [c] }
  | .quoteEnd =>
    if c = '"' then { s with cur := s.cur ++ ['"'], mode := .quoted }
    else if c = ',' then
      { s with fields := s.fields ++ [s.cur], cur := [], mode := .fieldStart }
    else if c = '\r' then { s with mode := .afterCR }
    else if c = '\n' then csvEndRecord s
    else { s with cur := s.cur ++ [c], mode := .unquoted }
  | .afterCR => if c = '\n' then csvEndRecord s else csvEndRecord s

/-- Emit the trailing record (if any) at end of input; a file ending in
a record terminator yields no extra empty record. -/
def csvFinish (s : CsvState) : List (List (List Char)) :=
  match s.mode with
  | .fieldStart =>
    if s.fields.isEmpty && s.cur.isEmpty then s.records
    else s.records ++ [s.fields ++ [s.cur]]
  | _ => s.records ++ [s.fields ++ [s.cur]]

/-- A standard CSV decoder: run the automaton over the text. -/
def csvParse (cs : List Char) : List (List (List Char)) :=
  csvFinish (cs.foldl csvStep csvInit)

/-! ### Theorems for claims C1 and C8 -/

/-- A store holding one fresh queued job with no `file_content`. -/
def c1Store : JobStore := fun id =>
  if id = "job-1" then some { status := .queued, filename := "a.txt" } else none

/-- A concrete pipeline that always succeeds (its behaviour is
irrelevant on the missing-input path). -/
def okPipeline : String → String → Except String (String × String) :=
  fun content filename => .ok (filename, content)

/-- C8: when the popped job id has no record in the store, the
dispatch iteration leaves the store exactly as it was: no record is
created, mutated, or marked failed. -/
theorem worker_skip_missing_record
    (pipeline : String → String → Except String (String × String))
    (now : String) (store : JobStore) (jobId : String)
    (h : store jobId = none) :
    workerStep pipeline now store jobId = store := by
  unfold workerStep
  rw [h]

/-- C8 (witness): on the empty store, popping `"job-1"` changes
nothing. -/
theorem worker_skip_missing_record_witness :
    workerStep okPipeline "t0" (fun _ => none) "job-1" = (fun _ => none) :=
  worker_skip_missing_record okPipeline "t0" (fun _ => none) "job-1" rfl

/-- C1 (counterexample): a queued job whose `file_content` is missing
transitions directly to `failed` with `error` set but `failed_at`
*unset* — the missing-input failure neither passes through
`processing` nor sets `failed_at`, contrary to the claim. -/
theorem worker_missing_input_counterexample :
    ((workerStep okPipeline "t0" c1Store "job-1") "job-1").map Job.status =
      some .failed ∧
    ((workerStep okPipeline "t0" c1Store "job-1") "job-1").map Job.failed_at =
      some none ∧
    ((workerStep okPipeline "t0" c1Store "job-1") "job-1").map Job.error =
      some (some "Missing file content in job metadata") := by
  refine ⟨rfl, rfl, rfl⟩

/-- C1 (amended): from `queued`, one dispatch iteration either
(a) fails the job immediately when its required input is falsy
(absent *or* the empty string — `if not file_content:`), setting
`error` but leaving `failed_at` unchanged (unset for a fresh record)
and never entering `processing`, or (b) with non-empty input present,
factors through an intermediate `processing` write (with `started_at`)
and ends `completed`, or `failed` with both `error` and `failed_at`
set.  No transition reverses a state. -/
theorem worker_status_transitions_amended
    (pipeline : String → String → Except String (String × String))
    (now : String) (store : JobStore) (jobId : String) (job : Job)
    (hrec : store jobId = some job) (_hq : job.status = .queued) :
    ((job.file_content = none ∨ job.file_content = some "") →
      ∃ j, (workerStep pipeline now store jobId) jobId = some j ∧
        j.status = .failed ∧
        j.error = some "Missing file content in job metadata" ∧
        j.failed_at = job.failed_at) ∧
    (∀ content, job.file_content = some content → content ≠ "" →
      (∀ p, pipeline content job.filename = .ok p →
        workerStep pipeline now store jobId =
          update_job_status
            (update_job_status store jobId .processing now
              { started_at := some now })
            jobId .completed now
            { completed_at := some now
              output_path := some p.1
              output_content := some p.2 } ∧
        ∃ j, (workerStep pipeline now store jobId) jobId = some j ∧
          j.status = .completed) ∧
      (∀ e, pipeline content job.filename = .error e →
        workerStep pipeline now store jobId =
          update_job_status
            (update_job_status store jobId .processing now
              { started_at := some now })
            jobId .failed now
            { error := some e, failed_at := some now } ∧
        ∃ j, (workerStep pipeline now store jobId) jobId = some j ∧
          j.status = .failed ∧ j.error = some e ∧ j.failed_at = some now)) := by
  constructor
  · intro hfc
    refine ⟨{ job with
        status := .failed
        updated_at := some now
        error := some "Missing file content in job metadata" }, ?_, rfl, rfl, rfl⟩
    rcases hfc with hfc | hfc
    · simp [workerStep, hrec, hfc, update_job_status]
    · simp [workerStep, hrec, hfc, update_job_status]
  · intro content hfc hcne
    constructor
    · intro p hok
      have hstep : workerStep pipeline now store jobId =
          update_job_status
            (update_job_status store jobId .processing now
              { started_at := some now })
            jobId .completed now
            { completed_at := some now
              output_path := some p.1
              output_content := some p.2 } := by
        simp only [workerStep, hrec, hfc, hok, if_neg hcne]
      refine ⟨hstep, ?_⟩
      rw [hstep]
      simp only [update_job_status, if_pos rfl, hrec]
      exact ⟨_, rfl, rfl⟩
    · intro e herr
      have hstep : workerStep pipeline now store jobId =
          update_job_status
            (update_job_status store jobId .processing now
              { started_at := some now })
            jobId .failed now
            { error := some e, failed_at := some now } := by
        simp only [workerStep, hrec, hfc, herr, if_neg hcne]
      refine ⟨hstep, ?_⟩
      rw [hstep]
      simp only [update_job_status, if_pos rfl, hrec]
      exact ⟨_, rfl, rfl, rfl, rfl⟩

/-- C1 (witness for the amended theorem): the missing-input branch on
the concrete fresh queued record. -/
theorem worker_status_transitions_amended_witness :
    ∃ j, (workerStep okPipeline "t0" c1Store "job-1") "job-1" = some j ∧
      j.status = .failed ∧
      j.error = some "Missing file content in job metadata" ∧
      j.failed_at = none :=
  (worker_status_transitions_amended okPipeline "t0" c1Store "job-1"
    { status := .queued, filename := "a.txt" } rfl rfl).1 (Or.inl rfl)

/-! ### Theorem for claim C9 -/

/-- Characters that need no quoting are none of `, " \r \n`. -/
theorem not_special_spec {c : Char} (h : isCsvSpecial c = false) :
    c ≠ ',' ∧ c ≠ '"' ∧ c ≠ '\r' ∧ c ≠ '\n' := by
  refine ⟨?_, ?_, ?_, ?_⟩ <;> intro hc <;> rw [hc] at h <;> simp [isCsvSpecial] at h

/-- Inside a quoted field, reading the quote-doubled encoding of `f`
appends exactly `f` to the current field. -/
theorem csvStep_quoted_doubled (f : List Char) :
    ∀ (recs : List (List (List Char))) (flds : List (List Char))
      (cur : List Char),
      List.foldl csvStep ⟨recs, flds, cur, .quoted⟩ (csvDoubled f) =
        ⟨recs, flds, cur ++ f, .quoted⟩ := by
  induction f with
  | nil => intro recs flds cur; simp [csvDoubled]
  | cons c f' ih =>
    intro recs flds cur
    by_cases hc : c = '"'
    · subst hc
      rw [show csvDoubled ('"' :: f') = '"' :: '"' :: csvDoubled f' by
        simp [csvDoubled]]
      simp only [List.foldl_cons]
      rw [show csvStep ⟨recs, flds, cur, .quoted⟩ '"' =
        ⟨recs, flds, cur, .quoteEnd⟩ from rfl]
      rw [show csvStep ⟨recs, flds, cur, .quoteEnd⟩ '"' =
        ⟨recs, flds, cur ++ ['"'], .quoted⟩ from rfl]
      rw [ih]
      simp
    · rw [show csvDoubled (c :: f') = c :: csvDoubled f' by
        simp [csvDoubled, hc]]
      simp only [List.foldl_cons]
      rw [show csvStep ⟨recs, flds, cur, .quoted⟩ c =
        ⟨recs, flds, cur ++ [c], .quoted⟩ by simp [csvStep, hc]]
      rw [ih]
      simp

/-- In an unquoted field, reading special-free characters appends them
to the current field. -/
theorem csvStep_unquoted_run (cs : List Char)
    (h : ∀ c ∈ cs, isCsvSpecial c = false) :
    ∀ (recs : List (List (List Char))) (flds : List (List Char))
      (cur : List Char),
      List.foldl csvStep ⟨recs, flds, cur, .unquoted⟩ cs =
        ⟨recs, flds, cur ++ cs, .unquoted⟩ := by
  induction cs with
  | nil => intro recs flds cur; simp
  | cons c cs' ih =>
    intro recs flds cur
    obtain ⟨h1, -, h3, h4⟩ := not_special_spec (h c (List.mem_cons_self c cs'))
    simp only [List.foldl_cons]
    rw [show csvStep ⟨recs, flds, cur, .unquoted⟩ c =
      ⟨recs, flds, cur ++ [c], .unquoted⟩ by simp [csvStep, h1, h3, h4]]
    rw [ih (fun d hd => h d (List.mem_cons_of_mem c hd))]
    simp

/-- Reading an encoded field followed by a comma finishes the field
and returns to the field-start state. -/
theorem csv_field_comma (f : List Char) (recs : List (List (List Char)))
    (flds : List (List Char)) (rest : List Char) :
    List.foldl csvStep ⟨recs, flds, [], .fieldStart⟩
        (csvEncodeField f ++ ',' :: rest) =
      List.foldl csvStep ⟨recs, flds ++ [f], [], .fieldStart⟩ rest := by
  rw [List.foldl_append]
  by_cases hq : f.any isCsvSpecial
  · rw [show csvEncodeField f = '"' :: (csvDoubled f ++ ['"']) by
      simp [csvEncodeField, hq]]
    simp only [List.foldl_cons]
    rw [show csvStep ⟨recs, flds, [], .fieldStart⟩ '"' =
      ⟨recs, flds, [], .quoted⟩ from rfl]
    rw [List.foldl_append, csvStep_quoted_doubled]
    simp only [List.nil_append, List.foldl_cons, List.foldl_nil]
    rfl
  · rw [show csvEncodeField f = f by simp [csvEncodeField, hq]]
    cases f with
    | nil => rfl
    | cons c f' =>
      have hall : ∀ d ∈ c :: f', isCsvSpecial d = false := by
        simpa [List.any_eq_false] using hq
      obtain ⟨h1, h2, h3, h4⟩ := not_special_spec (hall c (List.mem_cons_self c f'))
      simp only [List.foldl_cons]
      rw [show csvStep ⟨recs, flds, [], .fieldStart⟩ c =
        ⟨recs, flds, [c], .unquoted⟩ by simp [csvStep, h1, h2, h3, h4]]
      rw [csvStep_unquoted_run f' (fun d hd => hall d (List.mem_cons_of_mem c hd))]
      rfl

/-- Reading an encoded field followed by CRLF finishes the field and
the record. -/
theorem csv_field_crlf (f : List Char) (recs : List (List (List Char)))
    (flds : List (List Char)) (rest : List Char) :
    List.foldl csvStep ⟨recs, flds, [], .fieldStart⟩
        (csvEncodeField f ++ '\r' :: '\n' :: rest) =
      List.foldl csvStep ⟨recs ++ [flds ++ [f]], [], [], .fieldStart⟩ rest := by
  rw [List.foldl_append]
  by_cases hq : f.any isCsvSpecial
  · rw [show csvEncodeField f = '"' :: (csvDoubled f ++ ['"']) by
      simp [csvEncodeField, hq]]
    simp only [List.foldl_cons]
    rw [show csvStep ⟨recs, flds, [], .fieldStart⟩ '"' =
      ⟨recs, flds, [], .quoted⟩ from rfl]
    rw [List.foldl_append, csvStep_quoted_doubled]
    simp only [List.nil_append, List.foldl_cons, List.foldl_nil]
    rfl
  · rw [show csvEncodeField f = f by simp [csvEncodeField, hq]]
    cases f with
    | nil => rfl
    | cons c f' =>
      have hall : ∀ d ∈ c :: f', isCsvSpecial d = false := by
        simpa [List.any_eq_false] using hq
      obtain ⟨h1, h2, h3, h4⟩ := not_special_spec (hall c (List.mem_cons_self c f'))
      simp only [List.foldl_cons]
      rw [show csvStep ⟨recs, flds, [], .fieldStart⟩ c =
        ⟨recs, flds, [c], .unquoted⟩ by simp [csvStep, h1, h2, h3, h4]]
      rw [csvStep_unquoted_run f' (fun d hd => hall d (List.mem_cons_of_mem c hd))]
      rfl

/-- Reading one encoded row with its CRLF terminator appends one
two-field record. -/
theorem csv_row_crlf (front back : List Char)
    (recs : List (List (List Char))) (rest : List Char) :
    List.foldl csvStep ⟨recs, [], [], .fieldStart⟩
        (csvEncodeRow front back ++ '\r' :: '\n' :: rest) =
      List.foldl csvStep ⟨recs ++ [[front, back]], [], [], .fieldStart⟩
        rest := by
  unfold csvEncodeRow
  rw [show (csvEncodeField front ++ [','] ++ csvEncodeField back) ++
      '\r' :: '\n' :: rest =
    csvEncodeField front ++
      ',' :: (csvEncodeField back ++ '\r' :: '\n' :: rest) by simp]
  rw [csv_field_comma, csv_field_crlf]
  simp

/-- Reading the encoded card rows appends the corresponding records. -/
theorem csv_rows_run (cards : List (List Char × List Char)) :
    ∀ recs : List (List (List Char)),
      List.foldl csvStep ⟨recs, [], [], .fieldStart⟩
          (cards.flatMap (fun c => csvEncodeRow c.1 c.2 ++ ['\r', '\n'])) =
        ⟨recs ++ cards.map (fun c => [c.1, c.2]), [], [], .fieldStart⟩ := by
  induction cards with
  | nil => intro recs; simp
  | cons cd cards' ih =>
    intro recs
    simp only [List.flatMap_cons]
    rw [show (csvEncodeRow cd.1 cd.2 ++ ['\r', '\n']) ++
        cards'.flatMap (fun c => csvEncodeRow c.1 c.2 ++ ['\r', '\n']) =
      csvEncodeRow cd.1 cd.2 ++
        '\r' :: '\n' ::
          cards'.flatMap (fun c => csvEncodeRow c.1 c.2 ++ ['\r', '\n'])
      by simp]
    rw [csv_row_crlf, ih]
    simp

/-- C9: decoding the written deck CSV with the standard decoder yields
exactly the header row `Front,Back` followed by the cards' front/back
pairs, in order — the deck round-trips through the tabular encoding. -/
theorem write_csv_round_trip (cards : List (List Char × List Char)) :
    csvParse (DeckAssembler.write_csv cards) =
      ["Front".data, "Back".data] :: cards.map (fun c => [c.1, c.2]) := by
  unfold csvParse DeckAssembler.write_csv csvInit
  rw [show (csvEncodeRow "Front".data "Back".data ++ ['\r', '\n']) ++
      cards.flatMap (fun c => csvEncodeRow c.1 c.2 ++ ['\r', '\n']) =
    csvEncodeRow "Front".data "Back".data ++
      '\r' :: '\n' ::
        cards.flatMap (fun c => csvEncodeRow c.1 c.2 ++ ['\r', '\n'])
    by simp]
  rw [csv_row_crlf, csv_rows_run]
  simp [csvFinish]

/-! ### Theorems for claim C2 -/

/-- The keywords extracted from the single sentence `"cat runs"`
(`top_n = 5`): both terms have TF `1/2` and IDF argument
`1/(1+1) = 1/2`. -/
def catRunsKeywords : List Keyword :=
  [⟨"cat", 1, 2, 1, 2, "cat runs"⟩, ⟨"runs", 1, 2, 1, 2, "cat runs"⟩]

/-- The extractor relation holds of `catRunsKeywords` on `["cat runs"]`
with `top_n = 5` (shared by the C2 counterexample and witness). -/
theorem extract_keywords_cat_runs :
    ExtractKeywords ["cat runs"] 5 catRunsKeywords := by
  unfold ExtractKeywords
  rw [if_neg (by decide), if_neg (by decide)]
  refine ⟨keywordData ["cat runs"], ⟨[0, 1], by decide, by decide, ?_⟩, by decide⟩
  refine List.Pairwise.cons ?_ (List.pairwise_singleton _ _)
  intro j hj x y hx hy
  have hj1 : j = 1 := by simpa using hj
  subst hj1
  have hx0 : (keywordData ["cat runs"])[0]? =
      some ⟨"cat".data, 1, 2, 1, 2⟩ := by decide
  have hy1 : (keywordData ["cat runs"])[1]? =
      some ⟨"runs".data, 1, 2, 1, 2⟩ := by decide
  rw [hx0] at hx
  rw [hy1] at hy
  obtain rfl := Option.some.inj hx
  obtain rfl := Option.some.inj hy
  exact Or.inr ⟨rfl, Nat.zero_lt_one⟩

/-- C2 (counterexample): on the single-sentence document
`["cat runs"]` with `top_n = 5`, the extractor returns the keyword
`cat` with score `(1/2)·ln(1/2) < 0` — TF-IDF scores are not
non-negative. -/
theorem keywords_negative_score_counterexample :
    ExtractKeywords ["cat runs"] 5 catRunsKeywords ∧
    ∃ kw ∈ catRunsKeywords, kwScore kw < 0 := by
  refine ⟨extract_keywords_cat_runs,
    ⟨⟨"cat", 1, 2, 1, 2, "cat runs"⟩, by decide, ?_⟩⟩
  have hval : kwScore ⟨"cat", 1, 2, 1, 2, "cat runs"⟩ =
      (1 / 2 : ℝ) * Real.log (1 / 2) := by
    unfold kwScore
    norm_num
  rw [hval]
  exact mul_neg_of_pos_of_neg (by norm_num)
    (Real.log_neg (by norm_num) (by norm_num))

/-- `find?` decomposes the list at its first hit. -/
theorem find?_first_split {α : Type} (p : α → Bool) :
    ∀ (l : List α) (b : α), l.find? p = some b →
      p b = true ∧ ∃ pre post, l = pre ++ b :: post ∧
        ∀ a ∈ pre, p a = false := by
  intro l
  induction l with
  | nil => intro b h; simp at h
  | cons x l' ih =>
    intro b h
    by_cases hx : p x
    · rw [List.find?_cons_of_pos _ hx] at h
      obtain rfl := Option.some.inj h
      exact ⟨hx, [], l', rfl, by simp⟩
    · rw [List.find?_cons_of_neg _ hx] at h
      obtain ⟨hb, pre, post, hsplit, hpre⟩ := ih b h
      refine ⟨hb, x :: pre, post, by rw [hsplit]; rfl, ?_⟩
      intro a ha
      rcases List.mem_cons.1 ha with rfl | ha'
      · exact Bool.of_not_eq_true hx
      · exact hpre a ha'

/-- C2 (amended): every returned keyword's context is the first
sentence in document order whose lower-cased form contains the term as
a substring, or the empty string if none does; the score, however, is
`TF · ln(numDocs/(DF+1))`, which is negative whenever `DF + 1 >
numDocs` (for instance for every term of a single-sentence document),
so scores are not in general non-negative. -/
theorem keywords_context_amended (sentences : List String) (top_n : ℕ)
    (result : List Keyword) (hrel : ExtractKeywords sentences top_n result) :
    ∀ kw ∈ result, IsFirstContext kw.term.data sentences kw.context := by
  intro kw hkw
  unfold ExtractKeywords at hrel
  split_ifs at hrel with h1 h2
  · rw [hrel] at hkw; simp at hkw
  · rw [hrel] at hkw; simp at hkw
  · obtain ⟨sorted, -, rfl⟩ := hrel
    obtain ⟨e, -, rfl⟩ := List.mem_map.1 hkw
    unfold IsFirstContext contextOf
    cases hfind : sentences.find?
        (fun s => containsSub e.term (lowerChars s.data)) with
    | none =>
      left
      refine ⟨rfl, ?_⟩
      intro s hs
      have := List.find?_eq_none.1 hfind s hs
      simpa using this
    | some c =>
      right
      obtain ⟨hc, pre, post, hsplit, hpre⟩ :=
        find?_first_split _ sentences c hfind
      exact ⟨pre, post, by rw [hsplit]; simp [hfind], hc, hpre⟩

/-- C2 (witness for the amended theorem): the context of `cat` on
`["cat runs"]` is the first (only) sentence containing it. -/
theorem keywords_context_amended_witness :
    IsFirstContext "cat".data ["cat runs"] "cat runs" :=
  keywords_context_amended ["cat runs"] 5 catRunsKeywords
    extract_keywords_cat_runs ⟨"cat", 1, 2, 1, 2, "cat runs"⟩ (by decide)

/-! ### Theorem for claim C10 -/

/-- Picking elements of `l` at strictly increasing valid indices yields
a sublist of `l`. -/
theorem map_snd_sublist {α : Type} :
    ∀ (l : List α) (ps : List (ℕ × α)),
      ps.Pairwise (fun p q => p.1 < q.1) →
      (∀ p ∈ ps, l[p.1]? = some p.2) →
      (ps.map Prod.snd).Sublist l := by
  intro l
  induction l with
  | nil =>
    intro ps _ hget
    cases ps with
    | nil => simp
    | cons p ps' =>
      have := hget p (List.mem_cons_self p ps')
      simp at this
  | cons x l' ih =>
    intro ps hpair hget
    cases ps with
    | nil => exact List.nil_sublist _
    | cons p ps' =>
      have hp' := (List.pairwise_cons.1 hpair).1
      have hps' := (List.pairwise_cons.1 hpair).2
      rcases Nat.eq_zero_or_pos p.1 with h0 | hpos
      · have hx : p.2 = x := by
          have := hget p (List.mem_cons_self p ps')
          rw [h0] at this
          simpa using this.symm
        have hpos' : ∀ q ∈ ps', 0 < q.1 := fun q hq => h0 ▸ hp' q hq
        have hsub := ih (ps'.map (fun q => (q.1 - 1, q.2)))
          (by
            rw [List.pairwise_map]
            refine hps'.imp_of_mem ?_
            intro a b ha _ hlt
            have := hpos' a ha
            omega)
          (by
            intro q hq
            obtain ⟨r, hr, rfl⟩ := List.mem_map.1 hq
            have hg := hget r (List.mem_cons_of_mem p hr)
            have h1 := hpos' r hr
            obtain ⟨k, hk⟩ := Nat.exists_eq_add_of_lt h1
            rw [hk, Nat.zero_add] at hg ⊢
            simpa using hg)
        have hmap : (ps'.map (fun q => (q.1 - 1, q.2))).map Prod.snd =
            ps'.map Prod.snd := by
          rw [List.map_map]; rfl
        rw [hmap] at hsub
        simpa [hx] using hsub.cons₂ x
      · have hall : ∀ q ∈ p :: ps', 0 < q.1 := by
          intro q hq
          rcases List.mem_cons.1 hq with rfl | hq'
          · exact hpos
          · exact Nat.lt_trans hpos (hp' q hq')
        have hsub := ih ((p :: ps').map (fun q => (q.1 - 1, q.2)))
          (by
            rw [List.pairwise_map]
            refine hpair.imp_of_mem ?_
            intro a b ha _ hlt
            have := hall a ha
            omega)
          (by
            intro q hq
            obtain ⟨r, hr, rfl⟩ := List.mem_map.1 hq
            have hg := hget r hr
            have h1 := hall r hr
            obtain ⟨k, hk⟩ := Nat.exists_eq_add_of_lt h1
            rw [hk, Nat.zero_add] at hg ⊢
            simpa using hg)
        have hmap : ((p :: ps').map (fun q => (q.1 - 1, q.2))).map Prod.snd =
            (p :: ps').map Prod.snd := by
          rw [List.map_map]; rfl
        rw [hmap] at hsub
        exact hsub.cons x

/-- C10: the extractive summary is always some subsequence of the
input sentences, joined by single spaces in original document order;
when there are at most `num_sentences` sentences it is exactly all of
them joined by single spaces. -/
theorem summarize_order (sentences : List String) (n : ℕ) :
    (∃ sel, sel.Sublist sentences ∧
      Summarizer.summarize sentences n = String.intercalate " " sel) ∧
    (sentences.length ≤ n →
      Summarizer.summarize sentences n = String.intercalate " " sentences) := by
  by_cases hle : sentences.length ≤ n
  · refine ⟨⟨sentences, List.Sublist.refl _, ?_⟩, fun _ => ?_⟩ <;>
      simp [Summarizer.summarize, hle]
  · refine ⟨?_, fun h => absurd h hle⟩
    simp only [Summarizer.summarize, if_neg hle]
    set scored := sentences.enum.map
      (fun p => (p.1, sentenceScore sentences p.2, p.2)) with hscored
    set top := (List.insertionSort summaSortRel scored).take n with htop
    set ordered := List.insertionSort idxSortRel top with hordered
    refine ⟨ordered.map (fun t => t.2.2), ?_, rfl⟩
    have hmemscored : ∀ t ∈ ordered, t ∈ scored := by
      intro t ht
      have h1 : t ∈ top := (List.perm_insertionSort idxSortRel top).mem_iff.1 ht
      have h2 : t ∈ List.insertionSort summaSortRel scored :=
        (List.take_sublist n _).subset h1
      exact (List.perm_insertionSort summaSortRel scored).mem_iff.1 h2
    have hget : ∀ t ∈ ordered, sentences[t.1]? = some t.2.2 := by
      intro t ht
      obtain ⟨p, hp, rfl⟩ := List.mem_map.1 (hmemscored t ht)
      exact List.mem_enum_iff_getElem?.1 hp
    have hsorted : ordered.Pairwise idxSortRel :=
      List.sorted_insertionSort idxSortRel top
    have hnodup : (ordered.map Prod.fst).Nodup := by
      have e1 : scored.map Prod.fst = sentences.enum.map Prod.fst := by
        rw [hscored, List.map_map]; rfl
      have h1 : (scored.map Prod.fst).Nodup := by
        rw [e1]; exact List.nodup_enum_map_fst sentences
      have h2 : ((List.insertionSort summaSortRel scored).map Prod.fst).Nodup :=
        (((List.perm_insertionSort summaSortRel scored).map Prod.fst).nodup_iff).2 h1
      have h3 : (top.map Prod.fst).Nodup :=
        h2.sublist ((List.take_sublist n _).map Prod.fst)
      exact (((List.perm_insertionSort idxSortRel top).map Prod.fst).nodup_iff).2 h3
    have hne : ordered.Pairwise (fun a b => a.1 ≠ b.1) :=
      List.pairwise_map.1 hnodup
    have hlt : ordered.Pairwise (fun a b => a.1 < b.1) :=
      (hsorted.and hne).imp (fun h => Nat.lt_of_le_of_ne h.1 h.2)
    have hfinal := map_snd_sublist sentences
      (ordered.map (fun t => (t.1, t.2.2)))
      (by
        rw [List.pairwise_map]
        exact hlt)
      (by
        intro q hq
        obtain ⟨t, ht, rfl⟩ := List.mem_map.1 hq
        exact hget t ht)
    rw [List.map_map] at hfinal
    exact hfinal

/-- C10 (witness): on a two-sentence list with `n = 3` the summary is
all sentences joined by single spaces. -/
theorem summarize_order_witness :
    Summarizer.summarize ["a b", "c d"] 3 = "a b c d" :=
  ((summarize_order ["a b", "c d"] 3).2 (by decide)).trans rfl

/-- C3 (counterexample): on the C3 scenario document, no extracted
entity has the surface form `"Quick Brown Fox"`; the capitalized-phrase
pattern captures the sentence-initial `"The"` as part of the phrase. -/
theorem entities_quick_brown_fox_counterexample :
    ¬ ("Quick Brown Fox" ∈ (NamedEntityRecognizer.extract_entities
        (TextNormalizer.normalize c3Input).sentences).map Prod.fst) := by decide

/-- C3 (amended): the normalizer yields exactly 3 sentences on the C3
scenario document; the entity extractor's output contains the surface
form `"The Quick Brown Fox"` (not `"Quick Brown Fox"`), and the entity
`("Fox", TERM, "animal")` captured from the `is a` pattern. -/
theorem entities_c3_amended :
    (TextNormalizer.normalize c3Input).sentences.length = 3 ∧
    "The Quick Brown Fox" ∈ ((NamedEntityRecognizer.extract_entities
        (TextNormalizer.normalize c3Input).sentences).map Prod.fst) ∧
    ("Fox", "TERM", "animal") ∈ (NamedEntityRecognizer.extract_entities
        (TextNormalizer.normalize c3Input).sentences) := by decide

end DcFinal
